import Mathlib

/-!
Verification development for the Angular template pretty-printer
(`prettier/angular-prettier-plugin.js`).  The printer's data model and all
of its pure formatting routines are embedded shallowly: JS strings become
`String` (manipulated through their `List Char` data), JS regular
expressions are embedded as explicit structural scanners whose semantics
are derived from the concrete patterns in the source, and the ad-hoc local
arrays/stacks become explicit accumulator parameters.  Scanners that skip
over a matched span (and therefore do not recurse on a structural
sub-term) take an explicit fuel argument; every call site supplies
`length + 1` fuel, which is sufficient because each step consumes at least
one character.
-/

namespace AngularFmt

/-! ## Character classes and basic string utilities -/

/-- JS `\s` (whitespace) restricted to the ASCII whitespace characters:
space, tab, newline, carriage return, vertical tab, form feed.  (The
exotic Unicode whitespace also matched by JS `\s` plays no role in the
formatter and is omitted.) -/
def isWsChar (c : Char) : Bool :=
  c = ' ' || c = '\t' || c = '\n' || c = '\r' || c = '\x0b' || c = '\x0c'

/-- JS `\w` (word character): `[A-Za-z0-9_]`. -/
def isWordChar (c : Char) : Bool :=
  ('a' ≤ c && c ≤ 'z') || ('A' ≤ c && c ≤ 'Z') || ('0' ≤ c && c ≤ '9') || c = '_'

/-- Characters not matched by JS `.` (dot without the `s` flag):
line terminators.  (U+2028/U+2029 are omitted, as for `\s`.) -/
def isNlChar (c : Char) : Bool :=
  c = '\n' || c = '\r'

/-- `cs` contains no line terminator (JS `.` can match every character). -/
def noNl (cs : List Char) : Bool :=
  cs.all fun c => !isNlChar c

/-- JS `String.prototype.trim` on the character list. -/
def listTrim (cs : List Char) : List Char :=
  ((cs.dropWhile isWsChar).reverse.dropWhile isWsChar).reverse

/-- JS `String.prototype.trim`. -/
def jsTrim (s : String) : String :=
  String.mk (listTrim s.data)

/-- One pass of `replace(/\s+/g, ' ')`: the boolean records whether the
previous character was whitespace (so a run contributes one space). -/
def collapseAux : Bool → List Char → List Char
  | _, [] => []
  | prev, c :: rest =>
    if isWsChar c then
      if prev then collapseAux true rest
      else ' ' :: collapseAux true rest
    else c :: collapseAux false rest

/-- JS `replace(/\s+/g, ' ')`: collapse every whitespace run to a single
space. -/
def collapseWs (s : String) : String :=
  String.mk (collapseAux false s.data)

/-! ## Directive classifier (`isSelfClosingTag`, `isControlFlowDirective`,
`isIfChainDirective`, `isInterpolation`) -/

/-- Source `isSelfClosingTag`: the fixed set of void tags. -/
def isSelfClosingTag (name : String) : Bool :=
  ["area", "base", "br", "col", "embed", "hr", "img", "input", "link",
   "meta", "source", "track", "wbr"].contains name

/-- Keyword alternatives of `/^@(if|for|switch|defer|else if|else|case|default|error)\b/`. -/
def cfKeywords : List String :=
  ["if", "for", "switch", "defer", "else if", "else", "case", "default", "error"]

/-- Keyword alternatives of `/^@(else if|else|placeholder|loading|error)\b/`. -/
def chainKeywords : List String :=
  ["else if", "else", "placeholder", "loading", "error"]

/-- `/^@(kw₁|kw₂|…)\b/` on a character list: an `@`, one of the keywords,
then a word boundary (end of input or a non-word character).  The order of
the alternatives does not affect the boolean result, so an existential
over the keyword list is an exact embedding of the test. -/
def kwHeadMatch (kws : List String) (cs : List Char) : Bool :=
  match cs with
  | '@' :: rest =>
    kws.any fun kw =>
      kw.data.isPrefixOf rest &&
        (match rest.drop kw.data.length with
         | [] => true
         | c :: _ => !isWordChar c)
  | _ => false

/-- Source `isControlFlowDirective`: the regex is tested against
`text.replace(/\s+/g, ' ').trim()`. -/
def isControlFlowDirective (text : String) : Bool :=
  kwHeadMatch cfKeywords (jsTrim (collapseWs text)).data

/-- Source `isIfChainDirective`: same normalization, chain keyword set. -/
def isIfChainDirective (text : String) : Bool :=
  kwHeadMatch chainKeywords (jsTrim (collapseWs text)).data

/-- Scanner for the tail of `/^\s*{{\s*.*?\s*}}\s*$/` after the literal
open braces: the regex matches iff some occurrence of the closing braces
is followed only by whitespace, with the middle part decomposable as
whitespace, a dot-matchable (line-terminator-free) core, and whitespace —
equivalently its trimmed middle is line-terminator-free.  `midRev`
accumulates the middle seen so far (reversed). -/
def interpTailOk : List Char → List Char → Bool
  | _, [] => false
  | midRev, c :: rest =>
    (if ('}' :: '}' :: []).isPrefixOf (c :: rest) then
       (rest.drop 1).all isWsChar && noNl (listTrim midRev.reverse)
     else false) ||
    interpTailOk (c :: midRev) rest

/-- Source `isInterpolation`: `/^\s*{{\s*.*?\s*}}\s*$/.test(text)`.  The
leading `\s*` forces the maximal whitespace prefix (the next regex token
is a literal `{`), after which the scanner searches for a viable closing
delimiter. -/
def isInterpolation (text : String) : Bool :=
  let t := text.data.dropWhile isWsChar
  if ('{' :: '{' :: []).isPrefixOf t then interpTailOk [] (t.drop 2)
  else false

/-! ## Control-flow formatter (`formatControlFlow`) -/

/-- `.*?{` after the directive keyword: scan (without crossing a line
terminator, JS `.`) to the first `{`, returning the characters before it
and the remainder after it. -/
def seekBrace : List Char → Option (List Char × List Char)
  | [] => none
  | '{' :: rest => some ([], rest)
  | c :: rest =>
    if isNlChar c then none
    else (seekBrace rest).map fun p => (c :: p.1, p.2)

/-- `directive.match(/^(@\w+(?:\s+if)?)\s*(.*)/)`: returns the captured
directive name and the (still untrimmed) condition text.  The optional
`(?:\s+if)?` is included exactly when a whitespace run followed by `if`
is present (the greedy attempt; a shorter whitespace run cannot expose
the literal `i`). -/
def directiveParts (cs : List Char) : Option (List Char × List Char) :=
  match cs with
  | '@' :: rest =>
    match rest.takeWhile isWordChar with
    | [] => none
    | w =>
      let rest2 := rest.dropWhile isWordChar
      let wsRun := rest2.takeWhile isWsChar
      let afterWs := rest2.dropWhile isWsChar
      if wsRun ≠ [] && ('i' :: 'f' :: []).isPrefixOf afterWs then
        some ('@' :: (w ++ wsRun ++ ('i' :: 'f' :: [])),
              ((afterWs.drop 2).dropWhile isWsChar))
      else
        some ('@' :: w, rest2.dropWhile isWsChar)
  | _ => none

/-- Source `formatControlFlow` (on the text value of a directive node).
`content` is the trimmed value, `normalized` collapses its whitespace;
`/^(@\w+.*?){/` takes the maximal word run after `@` and scans to the
first `{` (the word run contains no `{`, so greediness is irrelevant);
without a match the trimmed content is emitted unchanged at the indent. -/
def formatControlFlow (value : String) (indent : String) : String :=
  let content := jsTrim value
  let normalized := collapseWs content
  match normalized.data with
  | '@' :: rest =>
    match rest.takeWhile isWordChar with
    | [] => indent ++ content
    | w =>
      match seekBrace (rest.dropWhile isWordChar) with
      | none => indent ++ content
      | some (mid, _) =>
        let directive := listTrim ('@' :: (w ++ mid))
        match directiveParts directive with
        | some (directiveName, condition) =>
          if condition ≠ [] then
            indent ++ String.mk directiveName ++ " " ++
              String.mk (listTrim condition) ++ " \x7b"
          else
            indent ++ String.mk directive ++ " \x7b"
        | none => indent ++ String.mk directive ++ " \x7b"
  | _ => indent ++ content

/-! ## Interpolation formatter (`formatInterpolation`) -/

/-- `[\s\S]*?}}` : scan to the first occurrence of `}}`, returning the
characters before it and the remainder after it. -/
def findCloseBr : List Char → Option (List Char × List Char)
  | [] => none
  | c :: rest =>
    if ('}' :: '}' :: []).isPrefixOf (c :: rest) then some ([], rest.drop 1)
    else (findCloseBr rest).map fun p => (c :: p.1, p.2)

/-- Global replace of `/{{\s*(.*?)\s*}}/g` by `'{{ ' + content.trim() + ' }}'`.
At each `{{`: the leading `\s*` is forced maximal (shrinking it only
moves whitespace into the dot-matched core); the lazy core ends at the
first `}}`, with the trailing `\s*` taking the maximal whitespace run
before it, so the capture is the segment with its trailing whitespace
stripped; if that capture would contain a line terminator no later `}}`
can repair it (the terminator stays interior), so there is no match at
this position and scanning resumes one character later. -/
def fmtInterpAux : Nat → List Char → List Char
  | 0, cs => cs
  | _ + 1, [] => []
  | fuel + 1, c :: rest =>
    if ('{' :: '{' :: []).isPrefixOf (c :: rest) then
      match findCloseBr ((rest.drop 1).dropWhile isWsChar) with
      | some (seg, rest2) =>
        let capture := (seg.reverse.dropWhile isWsChar).reverse
        if noNl capture then
          '{' :: '{' :: ' ' ::
            (listTrim capture ++ (' ' :: '}' :: '}' :: fmtInterpAux fuel rest2))
        else c :: fmtInterpAux fuel rest
      | none => c :: fmtInterpAux fuel rest
    else c :: fmtInterpAux fuel rest

/-- Source `formatInterpolation`: the interpolation-normalizing global
replace, prefixed by the indent.  (Both branches of the source's callback
return the same string, so the `offset` logic is irrelevant.) -/
def formatInterpolation (text : String) (indent : String) : String :=
  indent ++ String.mk (fmtInterpAux (text.data.length + 1) text.data)

/-! ## Data model -/

/-- Parsed attribute: `value = none` models the parser's `null` value of a
valueless (boolean) attribute. -/
structure Attr where
  name : String
  value : Option String
deriving Repr, DecidableEq

/-- Parsed node.  A JS node with an absent or empty `name` is modelled with
`name = ""` (the source only ever tests `!name`, which identifies the
two); absent `attrs`/`children` are modelled as `[]` (the source only
tests emptiness); a text node's possibly-absent `value` is an
`Option String`. -/
inductive Node where
  | element (name : String) (attrs : List Attr) (children : List Node)
  | text (value : Option String)
  | comment (value : String)
deriving Repr

/-- Transient control-flow block record pushed on the local stacks. -/
structure Block where
  directive : String
  indent : String
  contentIndent : String
deriving Repr, DecidableEq

/-! ## Text segmenter (`splitTextNode`) -/

/-- Decimal digit character. -/
def decDigit (n : Nat) : Char := Char.ofNat (48 + n)

/-- Decimal digits of a natural number (fuel-driven; `n + 1` fuel is
always enough). -/
def decDigitsAux : Nat → Nat → List Char
  | 0, _ => []
  | fuel + 1, n =>
    if n < 10 then [decDigit n]
    else decDigitsAux fuel (n / 10) ++ [decDigit (n % 10)]

/-- Decimal representation, as produced by JS template interpolation of a
number. -/
def decDigits (n : Nat) : List Char := decDigitsAux (n + 1) n

/-- The placeholder `__INTERPOLATION${k}__` guarding interpolation `k`. -/
def placeholderChars (k : Nat) : List Char :=
  "__INTERPOLATION".data ++ decDigits k ++ "__".data

/-- Numeric value of a digit run (JS coerces the `(\d+)` capture). -/
def digitsVal (ds : List Char) : Nat :=
  ds.foldl (fun a c => 10 * a + (c.toNat - 48)) 0

/-- The callback applied to each protected interpolation span: slice off
the delimiters, collapse all whitespace (`/[\s\n\r]+/g`, the same class
as `\s+`), trim, and rebuild with one space of padding. -/
def fmtProtectedInterp (inner : List Char) : List Char :=
  '{' :: '{' :: ' ' ::
    (listTrim (collapseAux false inner) ++ (' ' :: '}' :: '}' :: []))

/-- `content.replace(/{{\s*[\s\S]*?\s*}}/g, …)`: each `{{` opening a span
that still has a `}}` after it is matched through the first such `}}`
(`[\s\S]*?` is lazy and can absorb the inner `\s*`s); the span is
replaced by its placeholder and the formatted text is recorded, in match
order, at the placeholder's index.  A `{{` with no following `}}` has no
match (and then neither does anything after it), so the remainder is kept
verbatim. -/
def protectAux : Nat → Nat → List Char → List Char × List String
  | 0, _, cs => (cs, [])
  | _ + 1, _, [] => ([], [])
  | fuel + 1, k, c :: rest =>
    if ('{' :: '{' :: []).isPrefixOf (c :: rest) then
      match findCloseBr (rest.drop 1) with
      | some (inner, rest2) =>
        let p := protectAux fuel (k + 1) rest2
        (placeholderChars k ++ p.1, String.mk (fmtProtectedInterp inner) :: p.2)
      | none => (c :: rest, [])
    else
      let p := protectAux fuel k rest
      (c :: p.1, p.2)

/-- The directive alternative of the split regex,
`\@(?:if|for|switch|defer|else if|else|case|default|error).*?{`, tried at
a position whose `@` has already been consumed: the first keyword that is
a literal prefix and is followed by a `{` on the same line yields the
separator text (without the leading `@`) and the remainder.  (The only
overlapping alternatives, `else if`/`else`, reach the same first `{` or
fail together, so trying them in order is exact.) -/
def dirMatchGo : List String → List Char → Option (List Char × List Char)
  | [], _ => none
  | kw :: kws, rest =>
    if kw.data.isPrefixOf rest then
      match seekBrace (rest.drop kw.data.length) with
      | some (mid, rest2) => some (kw.data ++ mid ++ ('{' :: []), rest2)
      | none => dirMatchGo kws rest
    else dirMatchGo kws rest

/-- `split(/(\}|\@(?:…).*?{)/g)` with the captured separators kept, as JS
`String.split` does: chunks (possibly empty) alternate with separator
matches, scanning left to right.  `accRev` holds the pending chunk
reversed. -/
def splitCFAux : Nat → List Char → List Char → List (List Char)
  | 0, accRev, cs => [accRev.reverse ++ cs]
  | _ + 1, accRev, [] => [accRev.reverse]
  | fuel + 1, accRev, c :: rest =>
    if c = '}' then accRev.reverse :: ('}' :: []) :: splitCFAux fuel [] rest
    else if c = '@' then
      match dirMatchGo cfKeywords rest with
      | some (sep, rest2) => accRev.reverse :: ('@' :: sep) :: splitCFAux fuel [] rest2
      | none => splitCFAux fuel ('@' :: accRev) rest
    else splitCFAux fuel (c :: accRev) rest

/-- `part.replace(/__INTERPOLATION(\d+)__/g, (_, i) => interpolations[i])`:
at a literal `__INTERPOLATION` followed by at least one digit and `__`,
substitute the recorded interpolation (an out-of-range index would be the
JS string `"undefined"`); otherwise advance one character. -/
def restoreAux : Nat → List String → List Char → List Char
  | 0, _, cs => cs
  | _ + 1, _, [] => []
  | fuel + 1, interps, c :: rest =>
    if "__INTERPOLATION".data.isPrefixOf (c :: rest) then
      let afterTag := (c :: rest).drop "__INTERPOLATION".data.length
      let digits := afterTag.takeWhile Char.isDigit
      let afterDigits := afterTag.dropWhile Char.isDigit
      if digits ≠ [] && ('_' :: '_' :: []).isPrefixOf afterDigits then
        ((interps.get? (digitsVal digits)).getD "undefined").data ++
          restoreAux fuel interps (afterDigits.drop 2)
      else c :: restoreAux fuel interps rest
    else c :: restoreAux fuel interps rest

/-- Source `splitTextNode`.  A node with a falsy `value` (absent or the
empty string — and any non-text node, whose `value` is absent) is
returned as the one-element sequence `[node]` by the `!node.value` guard;
the subsequent `if (!content) return []` of the source is unreachable.
Otherwise: protect interpolations, split on closers/directive openers,
drop empty chunks, trim, drop blank chunks, restore placeholders, and
wrap each part as a text node. -/
def splitTextNode (node : Node) : List Node :=
  match node with
  | .text (some s) =>
    if s = "" then [node]
    else
      let prot := protectAux (s.data.length + 1) 0 s.data
      let chunks := (splitCFAux (prot.1.length + 1) [] prot.1).map String.mk
      let parts := ((chunks.filter (· ≠ "")).map jsTrim).filter (· ≠ "")
      parts.map fun p =>
        Node.text (some (String.mk (restoreAux (p.data.length + 1) prot.2 p.data)))
  | n => [n]

/-! ## Attribute formatter and content test -/

/-- Source `formatAttributes` (the unused `isSingleLine` parameter is
dropped): a single attribute renders inline without the indent; several
attributes render one per line at the indent, valueless ones as bare
names. -/
def formatAttributes (attrs : List Attr) (indent : String) : String :=
  match attrs with
  | [a] =>
    (match a.value with
     | none => a.name
     | some v => a.name ++ "=\"" ++ v ++ "\"")
  | _ =>
    String.intercalate "\n" (attrs.map fun a =>
      match a.value with
      | none => indent ++ a.name
      | some v => indent ++ a.name ++ "=\"" ++ v ++ "\"")

/-- Source `hasContent`: some child is a text node with a truthy,
non-blank value, or is not a text node at all. -/
def hasContent (children : List Node) : Bool :=
  children.any fun child =>
    match child with
    | .text (some s) => jsTrim s ≠ ""
    | .text none => false
    | _ => true

/-! ## Element formatter (`formatElement`) and its child loop -/

/-- The text-node branch of `formatElement` (source lines 226–239): blank
text formats to the empty string; a control-flow directive goes through
`formatControlFlow` (which trims internally, so passing the raw value is
exact); a pure interpolation goes through `formatInterpolation` on the
trimmed value; anything else is the trimmed value at the indent. -/
def formatTextish (value : String) (indent : String) : String :=
  let trimmed := jsTrim value
  if trimmed = "" then ""
  else if isControlFlowDirective trimmed then formatControlFlow value indent
  else if isInterpolation trimmed then formatInterpolation trimmed indent
  else indent ++ trimmed

/-- The effective indent of the child loops: the enclosing open block's
`contentIndent`, or the base indent when no block is open. -/
def currentIndent (stack : List Block) (base : String) : String :=
  match stack with
  | [] => base
  | b :: _ => b.contentIndent

/-- The `value` of a segmented fragment (the segmenter only produces text
nodes with present values). -/
def partValue (n : Node) : String :=
  match n with
  | .text (some s) => s
  | _ => ""

/-- One iteration of the fragment loop of `formatElement` (source lines
304–352) in the case where no chain merge fires: a directive opener
pushes a block at the current effective indent and emits its formatted
line; a closer with a non-empty stack pops and emits the closer at the
popped block's indent; every other fragment — including a closer with an
empty stack, which fails the source's `value === '}' &&
nestedBlockStack.length > 0` conjunction — is formatted as a text node at
the current effective indent and kept when non-blank. -/
def stepPart (value : String) (cbi : String) (stack : List Block)
    (acc : List String) : List Block × List String :=
  if isControlFlowDirective value then
    let ci := currentIndent stack cbi
    ({directive := value, indent := ci, contentIndent := ci ++ "  "} :: stack,
     acc ++ [formatControlFlow value ci])
  else if value = "\x7d" then
    match stack with
    | b :: bs => (bs, acc ++ [b.indent ++ "\x7d"])
    | [] =>
      let f := formatTextish value cbi
      ([], if jsTrim f ≠ "" then acc ++ [f] else acc)
  else
    let ci := currentIndent stack cbi
    let f := formatTextish value ci
    (stack, if jsTrim f ≠ "" then acc ++ [f] else acc)

/-- The fragment loop of `formatElement` over the parts of one segmented
text child, threading the local block stack and the collected child
lines.  The only interaction between consecutive fragments is the chain
merge: a closer (with an open block) immediately followed by a
chain-continuation fragment emits the closer and the formatted
continuation on one line at the popped block's indent, consumes the
continuation, and pushes a block reusing that same indent; otherwise the
loop takes one `stepPart`. -/
def processParts : List String → String → List Block → List String →
    List Block × List String
  | [], _, stack, acc => (stack, acc)
  | [value], cbi, stack, acc => stepPart value cbi stack acc
  | value :: nv :: rest2, cbi, stack, acc =>
    match stack with
    | b :: bs =>
      if !isControlFlowDirective value && value == "\x7d" && isIfChainDirective nv then
        processParts rest2 cbi
          ({directive := nv, indent := b.indent,
            contentIndent := b.indent ++ "  "} :: bs)
          (acc ++ [b.indent ++ "\x7d " ++ jsTrim (formatControlFlow nv "")])
      else
        let st := stepPart value cbi (b :: bs) acc
        processParts (nv :: rest2) cbi st.1 st.2
    | [] =>
      let st := stepPart value cbi [] acc
      processParts (nv :: rest2) cbi st.1 st.2

mutual

/-- Source `formatElement`. -/
def formatElement : Node → String → String
  | .comment v, indent => indent ++ "<!--" ++ v ++ "-->"
  | .text (some s), indent => formatTextish s indent
  | .text none, _ => ""
  | .element name attrs children, indent =>
    if name = "" then ""
    else
      let hasAttributes := !attrs.isEmpty
      let hasChildren := !children.isEmpty
      let elementHasContent := hasContent children
      let hasSingleAttr := hasAttributes && attrs.length == 1
      let shouldBeSingleLine := !elementHasContent && (hasSingleAttr || !hasAttributes)
      let opened :=
        if hasAttributes then
          if hasSingleAttr then
            indent ++ "<" ++ name ++ " " ++ formatAttributes attrs "" ++ ">"
          else
            indent ++ "<" ++ name ++ "\n" ++
              formatAttributes attrs
                (indent ++ (if elementHasContent then "    " else "  ")) ++ ">"
        else indent ++ "<" ++ name ++ ">"
      if shouldBeSingleLine then
        if !isSelfClosingTag name then opened ++ "</" ++ name ++ ">" else opened
      else if !hasChildren && isSelfClosingTag name then opened
      else if !elementHasContent then opened ++ "\n" ++ indent ++ "</" ++ name ++ ">"
      else
        let body :=
          if hasChildren then
            let childResults := (processChildren children (indent ++ "  ") [] []).2
            opened ++ "\n" ++ String.intercalate "\n" childResults ++ "\n" ++ indent
          else opened
        body ++ "</" ++ name ++ ">"

/-- The child loop of `formatElement` (source lines 298–363): a text child
with a truthy value is segmented and its fragments run through
`processParts`; every other child is recursively formatted at the current
effective indent and kept when non-blank. -/
def processChildren : List Node → String → List Block → List String →
    List Block × List String
  | [], _, stack, acc => (stack, acc)
  | child :: rest, cbi, stack, acc =>
    match child with
    | .text (some s) =>
      if s = "" then
        -- falsy value: the source's else-branch formats the node, which
        -- yields "" and is dropped as blank
        processChildren rest cbi stack acc
      else
        let r := processParts ((splitTextNode (.text (some s))).map partValue)
          cbi stack acc
        processChildren rest cbi r.1 r.2
    | .text none => processChildren rest cbi stack acc
    | c =>
      let ci := currentIndent stack cbi
      let f := formatElement c ci
      processChildren rest cbi stack (if jsTrim f ≠ "" then acc ++ [f] else acc)

end

/-! ## Root formatter (`formatRoot`) -/

/-- One iteration of the fragment loop of `formatRoot.processNode`
(source lines 389–453) in the case where no chain merge fires.  Unlike
the element loop, the closer test comes first and a closer with an empty
stack is silently dropped (neither output nor an error). -/
def stepRoot (n : Node) (indent : String) (stack : List Block)
    (res : List String) : List Block × List String :=
  match n with
  | .text v =>
    let value := v.getD ""
    if value = "\x7d" then
      match stack with
      | [] => ([], res)
      | b :: bs => (bs, res ++ [b.indent ++ "\x7d"])
    else if isControlFlowDirective value then
      let ci := currentIndent stack indent
      ({directive := value, indent := ci, contentIndent := ci ++ "  "} :: stack,
       res ++ [formatControlFlow value ci])
    else
      let ci := currentIndent stack indent
      let f := formatTextish value ci
      (stack, if jsTrim f ≠ "" then res ++ [f] else res)
  | other =>
    let ci := currentIndent stack indent
    let f := formatElement other ci
    (stack, if jsTrim f ≠ "" then res ++ [f] else res)

/-- Is the fragment a text node whose value is the block closer? -/
def isCloserNode (n : Node) : Bool :=
  match n with
  | .text v => v.getD "" == "\x7d"
  | _ => false

/-- The chain-continuation value of a lookahead fragment: the source's
`nextNode && nextNode.type === 'text' && isIfChainDirective(nextNode.value)`. -/
def rootChainValue (n : Node) : Option String :=
  match n with
  | .text (some nv) => if isIfChainDirective nv then some nv else none
  | _ => none

/-- The fragment loop of `formatRoot.processNode`, threading the shared
root block stack and result lines: a closer (with an open block)
immediately followed by a chain-continuation text fragment merges onto
one line at the popped block's indent, consumes the continuation, and
pushes a block reusing that same indent; otherwise the loop takes one
`stepRoot`. -/
def processRootParts : List Node → String → List Block → List String →
    List Block × List String
  | [], _, stack, res => (stack, res)
  | [n], indent, stack, res => stepRoot n indent stack res
  | n :: n2 :: rest2, indent, stack, res =>
    match stack with
    | b :: bs =>
      if isCloserNode n then
        match rootChainValue n2 with
        | some nv =>
          processRootParts rest2 indent
            ({directive := nv, indent := b.indent,
              contentIndent := b.indent ++ "  "} :: bs)
            (res ++ [b.indent ++ "\x7d " ++ jsTrim (formatControlFlow nv "")])
        | none =>
          let st := stepRoot n indent (b :: bs) res
          processRootParts (n2 :: rest2) indent st.1 st.2
      else
        let st := stepRoot n indent (b :: bs) res
        processRootParts (n2 :: rest2) indent st.1 st.2
    | [] =>
      let st := stepRoot n indent [] res
      processRootParts (n2 :: rest2) indent st.1 st.2

/-- `formatRoot.processNode` applied to one top-level node: blank text is
skipped, other text is segmented, non-text nodes pass through as a
singleton. -/
def processRootNode (node : Node) (indent : String)
    (st : List Block × List String) : List Block × List String :=
  match node with
  | .text none => st
  | .text (some s) =>
    if jsTrim s = "" then st
    else processRootParts (splitTextNode (.text (some s))) indent st.1 st.2
  | n => processRootParts [n] indent st.1 st.2

/-- Source `formatRoot`: fold the top-level nodes through `processNode`
(the block stack and result list are shared across all of them) and join
the collected lines. -/
def formatRoot (nodes : List Node) (baseIndent : String) : String :=
  String.intercalate "\n"
    (nodes.foldl (fun st n => processRootNode n baseIndent st) ([], [])).2

/-- Does `cs` contain `pat` as a contiguous subsequence?  (Used to state
the absence of an interpolation opener or of a placeholder collision in a
text value.) -/
def containsSeq (pat : List Char) : List Char → Bool
  | [] => pat.isPrefixOf []
  | c :: rest => pat.isPrefixOf (c :: rest) || containsSeq pat rest

/-- `s` contains no line-feed character (the output of the single-line
layouts must satisfy this). -/
def noLF (s : String) : Bool := s.data.all (fun c => c != '\n')

/-! ## Helper lemmas about trimming and scanning -/

theorem mem_dropWhile_of_neg {p : Char → Bool} {l : List Char} {c : Char}
    (hm : c ∈ l) (hc : p c = false) : c ∈ l.dropWhile p := by
  induction l with
  | nil => cases hm
  | cons a t ih =>
    rw [List.dropWhile_cons]
    by_cases h : p a = true
    · simp only [h, if_true]
      rcases List.mem_cons.mp hm with rfl | hmem
      · rw [hc] at h; cases h
      · exact ih hmem
    · simp only [h, if_false]
      exact hm

theorem listTrim_ne_nil {l : List Char} {c : Char} (hm : c ∈ l)
    (hc : isWsChar c = false) : listTrim l ≠ [] := by
  intro h
  unfold listTrim at h
  have h1 := mem_dropWhile_of_neg hm hc
  have h2 : c ∈ (l.dropWhile isWsChar).reverse := List.mem_reverse.mpr h1
  have h3 := mem_dropWhile_of_neg h2 hc
  rw [List.reverse_eq_nil_iff] at h
  rw [h] at h3
  exact absurd h3 (List.not_mem_nil c)

theorem mem_of_mem_listTrim {l : List Char} {c : Char}
    (h : c ∈ listTrim l) : c ∈ l := by
  unfold listTrim at h
  have h1 := List.mem_reverse.mp h
  have h2 := (List.dropWhile_suffix isWsChar).sublist.mem h1
  have h3 := List.mem_reverse.mp h2
  exact (List.dropWhile_suffix isWsChar).sublist.mem h3

theorem all_of_listTrim_eq_nil {l : List Char} (h : listTrim l = []) :
    ∀ c ∈ l, isWsChar c = true := by
  intro c hc
  cases hb : isWsChar c
  · exact absurd h (listTrim_ne_nil hc hb)
  · rfl

theorem jsTrim_ne_empty {s : String} {c : Char} (hm : c ∈ s.data)
    (hc : isWsChar c = false) : jsTrim s ≠ "" := by
  intro h
  have hd : listTrim s.data = [] := by
    have := congrArg String.data h
    simpa [jsTrim] using this
  exact listTrim_ne_nil hm hc hd

theorem containsSeq_head_mem {p : Char} {ps cs : List Char}
    (h : containsSeq (p :: ps) cs = true) : p ∈ cs := by
  induction cs with
  | nil => simp [containsSeq, List.isPrefixOf] at h
  | cons c rest ih =>
    rw [containsSeq, Bool.or_eq_true] at h
    rcases h with h | h
    · rw [List.isPrefixOf, Bool.and_eq_true] at h
      have : p = c := by
        have := h.1
        simpa [beq_iff_eq] using this
      subst this
      exact List.mem_cons_self p rest
    · exact List.mem_cons_of_mem c (ih h)

/-! ## Claim theorems -/

/-- Claim C10: for every node that is not a comment and not a text node and
whose name is absent or empty, `formatElement` returns the empty string,
regardless of the attributes and children the node carries (and, being a
total function, raises no error). -/
theorem claim10_blank_name (attrs : List Attr) (children : List Node)
    (indent : String) : formatElement (.element "" attrs children) indent = "" := by
  simp [formatElement]

/-- Claim C1: in both child-fragment loops (of an element and of the root),
a block-closer fragment immediately followed by a chain-continuation
fragment pops the top block, emits the single line `block.indent ++ "} " ++
formatted continuation`, consumes the continuation, and pushes a new block
whose indent is the popped block's indent and whose contentIndent is that
indent plus exactly two spaces — never a deeper indent. -/
theorem claim1_chain_merge (b : Block) (bs : List Block) (d : String)
    (rest : List String) (cbi : String) (acc : List String)
    (restN : List Node) (ind : String) (res : List String)
    (hd : isIfChainDirective d = true) :
    processParts ("\x7d" :: d :: rest) cbi (b :: bs) acc =
      processParts rest cbi
        ({directive := d, indent := b.indent, contentIndent := b.indent ++ "  "} :: bs)
        (acc ++ [b.indent ++ "\x7d " ++ jsTrim (formatControlFlow d "")]) ∧
    processRootParts (.text (some "\x7d") :: .text (some d) :: restN) ind (b :: bs) res =
      processRootParts restN ind
        ({directive := d, indent := b.indent, contentIndent := b.indent ++ "  "} :: bs)
        (res ++ [b.indent ++ "\x7d " ++ jsTrim (formatControlFlow d "")]) := by
  constructor
  · have hcf : isControlFlowDirective "\x7d" = false := rfl
    simp [processParts, hcf, hd]
  · have hcl : isCloserNode (.text (some "\x7d")) = true := rfl
    simp [processRootParts, hcl, rootChainValue, hd]

/-- Witness for C1 at a concrete chain: closing an `@if` block directly
followed by `@else \x7b` at root indent. -/
theorem claim1_chain_merge_witness :
    (processParts ["\x7d", "@else \x7b"] ""
        [{directive := "@if (a) \x7b", indent := "", contentIndent := "  "}] [] =
      processParts [] ""
        [{directive := "@else \x7b", indent := "", contentIndent := "  "}]
        ["\x7d @else \x7b"]) ∧
    (processRootParts [.text (some "\x7d"), .text (some "@else \x7b")] ""
        [{directive := "@if (a) \x7b", indent := "", contentIndent := "  "}] [] =
      processRootParts [] ""
        [{directive := "@else \x7b", indent := "", contentIndent := "  "}]
        ["\x7d @else \x7b"]) :=
  claim1_chain_merge {directive := "@if (a) \x7b", indent := "", contentIndent := "  "}
    [] "@else \x7b" [] "" [] [] "" [] rfl

/-- C4 counterexample: in the element child loop a block-closer with an
empty local stack is not dropped — it is emitted as plain text at the
base child indent, so the output differs from the closer-free tree. -/
theorem claim4_counterexample :
    formatElement (.element "div" [] [.text (some "\x7d")]) "" = "<div>\n  \x7d\n</div>" ∧
    formatElement (.element "div" [] [.text (some "\x7d")]) "" ≠
      formatElement (.element "div" [] []) "" := by decide

/-- Claim C4 (amended): a block-closer met with an empty block stack raises
no error in either loop, but the two loops disagree: the root loop drops it
silently, while the element child loop emits it as a plain-text line
`currentIndent ++ "}"` at the base child indent. -/
theorem claim4_amended :
    (∀ (rest : List Node) (ind : String) (res : List String),
      processRootParts (.text (some "\x7d") :: rest) ind [] res =
        processRootParts rest ind [] res) ∧
    (∀ (rest : List String) (cbi : String) (acc : List String),
      processParts ("\x7d" :: rest) cbi [] acc =
        processParts rest cbi [] (acc ++ [cbi ++ "\x7d"])) := by
  have hstep : ∀ (cbi : String) (acc : List String),
      stepPart "\x7d" cbi [] acc = ([], acc ++ [cbi ++ "\x7d"]) := by
    intro cbi acc
    have hne : jsTrim (cbi ++ "\x7d") ≠ "" :=
      jsTrim_ne_empty (c := '\x7d') (by simp [String.data_append]) rfl
    simp [stepPart, formatTextish, hne,
      show isControlFlowDirective "\x7d" = false from rfl,
      show isInterpolation "\x7d" = false from rfl,
      show jsTrim "\x7d" = "\x7d" from rfl]
  constructor
  · intro rest ind res
    cases rest with
    | nil => simp [processRootParts, stepRoot]
    | cons n2 rest2 => simp [processRootParts, stepRoot]
  · intro rest cbi acc
    cases rest with
    | nil => simp [processParts, hstep]
    | cons v vs =>
      simp [processParts,
        show isControlFlowDirective "\x7d" = false from rfl, hstep]

theorem dropWhile_append_all {p : Char → Bool} {xs ys : List Char}
    (h : xs.all p = true) : (xs ++ ys).dropWhile p = ys.dropWhile p := by
  induction xs with
  | nil => rfl
  | cons a t ih =>
    rw [List.all_cons, Bool.and_eq_true] at h
    rw [List.cons_append, List.dropWhile_cons, if_pos h.1]
    exact ih h.2

theorem noNl_listTrim {l : List Char} (h : noNl l = true) :
    noNl (listTrim l) = true := by
  rw [noNl, List.all_eq_true] at h ⊢
  intro c hc
  exact h c (mem_of_mem_listTrim hc)

theorem interpTailOk_final : ∀ (m midRev w : List Char),
    w.all isWsChar = true → noNl (listTrim (midRev.reverse ++ m)) = true →
    interpTailOk midRev (m ++ ('}' :: '}' :: w)) = true := by
  intro m
  induction m with
  | nil =>
    intro midRev w hw hn
    rw [List.nil_append, interpTailOk]
    have hp : ('}' :: '}' :: []).isPrefixOf ('}' :: '}' :: w) = true := by
      simp [List.isPrefixOf]
    rw [List.append_nil] at hn
    simp [hp, hw, hn]
  | cons c m2 ih =>
    intro midRev w hw hn
    rw [List.cons_append, interpTailOk]
    have := ih (c :: midRev) w hw (by
      rwa [List.reverse_cons, List.append_assoc, List.singleton_append])
    rw [this, Bool.or_true]

theorem interpTailOk_decomp : ∀ (cs midRev : List Char),
    interpTailOk midRev cs = true →
    ∃ m w, cs = m ++ ('}' :: '}' :: w) ∧ w.all isWsChar = true ∧
      noNl (listTrim (midRev.reverse ++ m)) = true := by
  intro cs
  induction cs with
  | nil => intro midRev h; rw [interpTailOk] at h; cases h
  | cons c rest ih =>
    intro midRev h
    rw [interpTailOk, Bool.or_eq_true] at h
    rcases h with h | h
    · by_cases hp : ('}' :: '}' :: []).isPrefixOf (c :: rest) = true
      · rw [if_pos hp, Bool.and_eq_true] at h
        have hc : c = '}' ∧ ('}' :: []).isPrefixOf rest = true := by
          rw [List.isPrefixOf, Bool.and_eq_true] at hp
          exact ⟨by simpa [eq_comm] using (beq_iff_eq.mp hp.1), hp.2⟩
        obtain ⟨rfl, hr⟩ := hc
        cases rest with
        | nil => cases hr
        | cons r rs =>
          have : r = '}' := by
            rw [List.isPrefixOf, Bool.and_eq_true] at hr
            simpa [eq_comm] using (beq_iff_eq.mp hr.1)
          subst this
          refine ⟨[], rs, rfl, ?_, ?_⟩
          · simpa using h.1
          · simpa using h.2
      · rw [if_neg hp] at h; cases h
    · rcases ih (c :: midRev) h with ⟨m, w, hcs, hw, hn⟩
      refine ⟨c :: m, w, by rw [hcs, List.cons_append], hw, ?_⟩
      rwa [List.reverse_cons, List.append_assoc, List.singleton_append] at hn

/-- C8 counterexample: the claim requires `isInterpolation` to be false on
any string containing two interpolation spans, but the source regex
`/^\s*{{\s*.*?\s*}}\s*$/` accepts two spans (the lazy dot absorbs the
inner delimiters and the intervening text). -/
theorem claim8_counterexample :
    isInterpolation "\x7b\x7ba\x7d\x7d \x7b\x7bb\x7d\x7d" = true := by decide

/-- Claim C8 (amended): `isInterpolation` accepts exactly the strings that
are whitespace, `{{`, a middle part whose trimmed core is free of line
terminators and that ends at some `}}` followed only by whitespace — it
checks the delimiters at the (trimmed) ends only, so a single span is
sufficient but not necessary, and strings with two spans or with `}}`
inside the middle are also accepted. -/
theorem claim8_amended :
    (∀ s : String, isInterpolation s = true →
      ∃ mid tail : List Char,
        s.data.dropWhile isWsChar = '{' :: '{' :: (mid ++ ('}' :: '}' :: tail)) ∧
        tail.all isWsChar = true ∧ noNl (listTrim mid) = true) ∧
    (∀ w1 core w2 : String, w1.data.all isWsChar = true →
      w2.data.all isWsChar = true → noNl core.data = true →
      isInterpolation (w1 ++ "\x7b\x7b" ++ core ++ "\x7d\x7d" ++ w2) = true) := by
  constructor
  · intro s h
    rw [isInterpolation] at h
    by_cases hp : ('{' :: '{' :: []).isPrefixOf (s.data.dropWhile isWsChar) = true
    · obtain ⟨tl, htl⟩ := List.isPrefixOf_iff_prefix.mp hp
      rw [if_pos hp] at h
      rw [← htl] at h ⊢
      have hdrop : (('{' :: '{' :: []) ++ tl).drop 2 = tl := rfl
      rw [hdrop] at h
      rcases interpTailOk_decomp tl [] h with ⟨m, w, hcs, hw, hn⟩
      exact ⟨m, w, by rw [hcs]; rfl, hw, by simpa using hn⟩
    · rw [if_neg hp] at h; cases h
  · intro w1 core w2 h1 h2 h3
    rw [isInterpolation]
    have hdata : (w1 ++ "\x7b\x7b" ++ core ++ "\x7d\x7d" ++ w2).data =
        w1.data ++ ('{' :: '{' :: (core.data ++ ('}' :: '}' :: w2.data))) := by
      simp [String.data_append]
    rw [hdata, dropWhile_append_all h1]
    have hdw : ('{' :: '{' :: (core.data ++ ('}' :: '}' :: w2.data))).dropWhile isWsChar
        = '{' :: '{' :: (core.data ++ ('}' :: '}' :: w2.data)) := rfl
    rw [hdw]
    have hp : ('{' :: '{' :: []).isPrefixOf
        ('{' :: '{' :: (core.data ++ ('}' :: '}' :: w2.data))) = true := by
      simp [List.isPrefixOf]
    rw [if_pos hp]
    exact interpTailOk_final core.data [] w2.data h2 (by simpa using noNl_listTrim h3)

/-- Witness for C8 (amended) at concrete inputs: the necessity direction at
`" \x7b\x7b x \x7d\x7d "` and the sufficiency direction building the same
string from its parts. -/
theorem claim8_amended_witness :
    (∃ mid tail : List Char,
      " \x7b\x7b x \x7d\x7d ".data.dropWhile isWsChar =
        '{' :: '{' :: (mid ++ ('}' :: '}' :: tail)) ∧
      tail.all isWsChar = true ∧ noNl (listTrim mid) = true) ∧
    isInterpolation (" " ++ "\x7b\x7b" ++ " x " ++ "\x7d\x7d" ++ " ") = true :=
  ⟨claim8_amended.1 " \x7b\x7b x \x7d\x7d " (by decide),
   claim8_amended.2 " " " x " " " (by decide) (by decide) (by decide)⟩

theorem dropWhile_ws_append_br (l w : List Char) :
    (l ++ ('}' :: w)).dropWhile isWsChar = l.dropWhile isWsChar ++ ('}' :: w) := by
  rw [List.dropWhile_append]
  by_cases h : (l.dropWhile isWsChar).isEmpty = true
  · rw [if_pos h]
    rw [List.isEmpty_iff] at h
    rw [h, List.nil_append, List.dropWhile_cons]
    simp [isWsChar]
  · rw [if_neg h]

theorem findCloseBr_append (xs ys : List Char) (hx : '\x7d' ∉ xs) :
    findCloseBr (xs ++ ('}' :: '}' :: ys)) = some (xs, ys) := by
  induction xs with
  | nil =>
    rw [List.nil_append, findCloseBr]
    simp [List.isPrefixOf]
  | cons x xs ih =>
    have hx1 : x ≠ '}' := fun h => hx (h ▸ List.mem_cons_self x xs)
    rw [List.cons_append, findCloseBr]
    have hp : ('}' :: '}' :: []).isPrefixOf (x :: (xs ++ '}' :: '}' :: ys)) = false := by
      rw [List.isPrefixOf]
      simp [Ne.symm hx1]
    rw [hp]
    simp only [Bool.false_eq_true, if_false]
    rw [ih (fun hm => hx (List.mem_cons_of_mem x hm))]
    rfl

theorem dropWhile_prefix_self {p : Char → Bool} {X Y : List Char}
    (hX : X.dropWhile p = X) (hY : Y <+: X) : Y.dropWhile p = Y := by
  cases Y with
  | nil => rfl
  | cons c t =>
    rcases hY with ⟨r, hr⟩
    cases hpc : p c
    · rw [List.dropWhile_cons, hpc]
      simp
    · exfalso
      rw [← hr, List.cons_append, List.dropWhile_cons, hpc] at hX
      simp only [if_true] at hX
      have hlen := congrArg List.length hX
      have hle : ((t ++ r).dropWhile p).length ≤ (t ++ r).length :=
        (List.dropWhile_suffix p).sublist.length_le
      rw [List.length_cons] at hlen
      omega

theorem listTrim_idem (l : List Char) : listTrim (listTrim l) = listTrim l := by
  show List.rdropWhile isWsChar
      ((List.rdropWhile isWsChar (l.dropWhile isWsChar)).dropWhile isWsChar) =
    List.rdropWhile isWsChar (l.dropWhile isWsChar)
  have h1 : (l.dropWhile isWsChar).dropWhile isWsChar = l.dropWhile isWsChar :=
    List.dropWhile_idempotent isWsChar l
  have h2 : (List.rdropWhile isWsChar (l.dropWhile isWsChar)).dropWhile isWsChar =
      List.rdropWhile isWsChar (l.dropWhile isWsChar) :=
    dropWhile_prefix_self h1 ( List.rdropWhile_prefix _ _)
  rw [h2, List.rdropWhile_idempotent]

theorem fmtInterpAux_nil (fuel : Nat) : fmtInterpAux fuel [] = [] := by
  cases fuel <;> rfl

/-- C7 counterexample: `formatInterpolation` trims the captured expression
but does not collapse its internal whitespace runs — `a   b` keeps its
three spaces, while the claim predicts the collapsed `a b`. -/
theorem claim7_counterexample :
    formatInterpolation "\x7b\x7ba   b\x7d\x7d" "" = "\x7b\x7b a   b \x7d\x7d" ∧
    formatInterpolation "\x7b\x7ba   b\x7d\x7d" "" ≠
      "" ++ "\x7b\x7b " ++ jsTrim (collapseWs "a   b") ++ " \x7d\x7d" := by decide

theorem stringDataEq {s t : String} (h : s.data = t.data) : s = t := by
  cases s; cases t; exact congrArg String.mk h

/-- Claim C7 (amended): on a single-span, single-line interpolation
fragment `\x7b\x7b mid \x7d\x7d` the formatter returns the indent, the
opening delimiter plus one space, the inner expression *trimmed only*
(internal whitespace runs are kept as written — collapsing happens in the
text segmenter, not in `formatInterpolation`), one space, and the closing
delimiter. -/
theorem claim7_amended (mid ind : String)
    (h1 : '\x7d' ∉ mid.data) (h2 : noNl mid.data = true) :
    formatInterpolation ("\x7b\x7b" ++ mid ++ "\x7d\x7d") ind =
      ind ++ "\x7b\x7b " ++ jsTrim mid ++ " \x7d\x7d" := by
  have hdata : ("\x7b\x7b" ++ mid ++ "\x7d\x7d").data =
      '{' :: '{' :: (mid.data ++ ('}' :: '}' :: [])) := by
    simp [String.data_append]
  have hD : '\x7d' ∉ mid.data.dropWhile isWsChar :=
    fun hm => h1 ((List.dropWhile_suffix isWsChar).sublist.mem hm)
  have hlist : fmtInterpAux (('{' :: '{' :: (mid.data ++ ('}' :: '}' :: []))).length + 1)
      ('{' :: '{' :: (mid.data ++ ('}' :: '}' :: []))) =
      '{' :: '{' :: ' ' :: (listTrim mid.data ++ (' ' :: '}' :: '}' :: [])) := by
    have hlen : ('{' :: '{' :: (mid.data ++ ('}' :: '}' :: []))).length + 1 =
        (mid.data.length + 4) + 1 := by simp
    rw [hlen, fmtInterpAux]
    have hp : ('{' :: '{' :: []).isPrefixOf
        ('{' :: ('{' :: (mid.data ++ ('}' :: '}' :: [])))) = true := by
      simp [List.isPrefixOf]
    rw [if_pos hp]
    have hdrop : ('{' :: (mid.data ++ ('}' :: '}' :: []))).drop 1 =
        mid.data ++ ('}' :: '}' :: []) := rfl
    rw [hdrop, dropWhile_ws_append_br mid.data ('}' :: []),
      findCloseBr_append (mid.data.dropWhile isWsChar) [] hD]
    have hcap : ((mid.data.dropWhile isWsChar).reverse.dropWhile isWsChar).reverse =
        listTrim mid.data := rfl
    simp only [hcap, listTrim_idem, noNl_listTrim h2, if_true, fmtInterpAux_nil]
  rw [formatInterpolation, hdata, hlist]
  apply stringDataEq
  simp [String.data_append, jsTrim]

theorem string_append_empty (s : String) : s ++ "" = s :=
  stringDataEq (by simp [String.data_append])

theorem noLF_append (s t : String) : noLF (s ++ t) = (noLF s && noLF t) := by
  simp [noLF, String.data_append, List.all_append]

/-- Witness for C7 (amended) at a concrete fragment with internal runs. -/
theorem claim7_amended_witness :
    formatInterpolation ("\x7b\x7b" ++ "  a   b " ++ "\x7d\x7d") "  " =
      "  " ++ "\x7b\x7b " ++ jsTrim "  a   b " ++ " \x7d\x7d" :=
  claim7_amended "  a   b " "  " (by decide) (by decide)

/-- C2 counterexample: a single-attribute, no-content element whose
attribute value contains a line feed yields an output with a line feed,
contradicting the claim's "no newline anywhere in the result". -/
theorem claim2_counterexample :
    formatElement (.element "div" [{name := "class", value := some "a\nb"}] []) "" =
      "<div class=\"a\nb\"></div>" ∧
    '\n' ∈ (formatElement
      (.element "div" [{name := "class", value := some "a\nb"}] []) "").data := by
  decide

/-- Claim C2 (amended): an element with exactly one attribute and no
meaningful content renders as the single line `indent<name attr>` plus the
closing tag unless self-closing — and the result is free of line feeds
provided the element name, the indent, and the attribute's name and value
contain none (the formatter copies attribute text verbatim, so a newline
inside it survives into the "single" line). -/
theorem claim2_amended (name ind : String) (a : Attr) (children : List Node)
    (hn : name ≠ "") (hc : hasContent children = false)
    (h1 : noLF name = true) (h2 : noLF ind = true) (h3 : noLF a.name = true)
    (h4 : ∀ v, a.value = some v → noLF v = true) :
    formatElement (.element name [a] children) ind =
      ind ++ "<" ++ name ++ " " ++ formatAttributes [a] "" ++ ">" ++
        (if isSelfClosingTag name then "" else "</" ++ name ++ ">") ∧
    noLF (formatElement (.element name [a] children) ind) = true := by
  have key : formatElement (.element name [a] children) ind =
      ind ++ "<" ++ name ++ " " ++ formatAttributes [a] "" ++ ">" ++
        (if isSelfClosingTag name then "" else "</" ++ name ++ ">") := by
    rw [formatElement]
    rw [if_neg hn]
    simp only [hc]
    by_cases hsc : isSelfClosingTag name = true
    · simp [hsc, string_append_empty]
    · simp only [hsc, Bool.not_false, if_false, Bool.false_eq_true, if_true]
      apply stringDataEq
      simp [String.data_append]
  refine ⟨key, ?_⟩
  rw [key]
  obtain ⟨an, av⟩ := a
  cases av with
  | none =>
    have h3n : noLF an = true := h3
    by_cases hsc : isSelfClosingTag name = true <;>
      simp [hsc, formatAttributes, noLF_append, h1, h2, h3n,
        show noLF "<" = true from rfl, show noLF " " = true from rfl,
        show noLF ">" = true from rfl, show noLF "</" = true from rfl,
        show noLF "" = true from rfl]
  | some v =>
    have h3n : noLF an = true := h3
    have h4n : noLF v = true := h4 v rfl
    by_cases hsc : isSelfClosingTag name = true <;>
      simp [hsc, formatAttributes, noLF_append, h1, h2, h3n, h4n,
        show noLF "<" = true from rfl, show noLF " " = true from rfl,
        show noLF ">" = true from rfl, show noLF "</" = true from rfl,
        show noLF "=\"" = true from rfl, show noLF "\"" = true from rfl,
        show noLF "" = true from rfl]

/-- Witness for C2 (amended): the spec's own example
`<button (click)="go()"></button>`. -/
theorem claim2_amended_witness :
    formatElement (.element "button" [{name := "(click)", value := some "go()"}] []) "" =
      "" ++ "<" ++ "button" ++ " " ++
        formatAttributes [{name := "(click)", value := some "go()"}] "" ++ ">" ++
        (if isSelfClosingTag "button" then "" else "</" ++ "button" ++ ">") ∧
    noLF (formatElement
      (.element "button" [{name := "(click)", value := some "go()"}] []) "") = true :=
  claim2_amended "button" "" {name := "(click)", value := some "go()"} []
    (by decide) rfl rfl rfl rfl (fun v hv => by cases hv; rfl)

/-- C5 counterexample: a self-closing tag that does carry children reaches
the content path and a closing tag is appended — `</br>` occurs in the
output, contradicting "regardless of whether it has children". -/
theorem claim5_counterexample :
    formatElement (.element "br" [] [.text (some "x")]) "" = "<br>\n  x\n</br>" ∧
    containsSeq "</br>".data
      (formatElement (.element "br" [] [.text (some "x")]) "").data = true := by
  decide

/-- Claim C5 (amended): for a self-closing tag with **no children** the
output is exactly the opening-tag rendering — no closing tag is ever
appended, for any number of attributes.  (With children present a closing
tag can be emitted, as the counterexample shows.) -/
theorem claim5_amended (name ind : String) (attrs : List Attr)
    (h : isSelfClosingTag name = true) :
    formatElement (.element name attrs []) ind =
      ind ++ "<" ++ name ++
        (match attrs with
         | [] => ">"
         | [a] => " " ++ formatAttributes [a] "" ++ ">"
         | _ => "\n" ++ formatAttributes attrs (ind ++ "  ") ++ ">") := by
  have hn : name ≠ "" := by
    intro e
    rw [e] at h
    exact absurd h (by decide)
  rcases attrs with _ | ⟨a, _ | ⟨b, t⟩⟩
  · rw [formatElement, if_neg hn]
    simp [h]
  · rw [formatElement, if_neg hn]
    simp only [h]
    apply stringDataEq
    simp [String.data_append]
  · rw [formatElement, if_neg hn]
    have hne2 : ((a :: b :: t).length == 1) = false := by
      rw [beq_eq_false_iff_ne]
      simp
    simp only [h, hne2, show hasContent [] = false from rfl]
    apply stringDataEq
    simp [String.data_append]
/-- Witness for C5 (amended): the spec's own example, `input` with two
attributes and no content — multi-line attributes, `>`, no `</input>`. -/
theorem claim5_amended_witness :
    formatElement (.element "input"
      [{name := "type", value := some "text"}, {name := "name", value := some "x"}] []) "" =
      "" ++ "<" ++ "input" ++
        ("\n" ++ formatAttributes
          [{name := "type", value := some "text"}, {name := "name", value := some "x"}]
          ("" ++ "  ") ++ ">") :=
  claim5_amended "input" ""
    [{name := "type", value := some "text"}, {name := "name", value := some "x"}]
    (by decide)

theorem formatAttributes_multi (a b : Attr) (t : List Attr) (pad : String) :
    formatAttributes (a :: b :: t) pad =
      String.intercalate "\n" ((a :: b :: t).map fun x =>
        pad ++ (match x.value with
                | none => x.name
                | some v => x.name ++ "=\"" ++ v ++ "\"")) := by
  show String.intercalate "\n" ((a :: b :: t).map fun x =>
      match x.value with
      | none => pad ++ x.name
      | some v => pad ++ x.name ++ "=\"" ++ v ++ "\"") = _
  congr 1
  apply List.map_congr_left
  intro x _
  rcases x with ⟨xn, xv⟩
  cases xv with
  | none => rfl
  | some v =>
    apply stringDataEq
    simp [String.data_append]

/-- Claim C3: an element with two or more attributes renders each attribute
on its own line (bare name when valueless, `name="value"` otherwise),
joined by newlines after a newline following `<name`, at the element's
indent plus four spaces when it has meaningful content and plus two spaces
when it does not. -/
theorem claim3_multi_attrs (name ind : String) (attrs : List Attr)
    (children : List Node) (hn : name ≠ "") (hlen : 2 ≤ attrs.length) :
    (formatAttributes attrs (ind ++ (if hasContent children then "    " else "  ")) =
      String.intercalate "\n" (attrs.map fun x =>
        (ind ++ (if hasContent children then "    " else "  ")) ++
          (match x.value with
           | none => x.name
           | some v => x.name ++ "=\"" ++ v ++ "\""))) ∧
    ∃ rest : String,
      formatElement (.element name attrs children) ind =
        ind ++ "<" ++ name ++ "\n" ++
          formatAttributes attrs
            (ind ++ (if hasContent children then "    " else "  ")) ++
          ">" ++ rest := by
  rcases attrs with _ | ⟨a, _ | ⟨b, t⟩⟩
  · simp at hlen
  · simp at hlen
  · refine ⟨formatAttributes_multi a b t _, ?_⟩
    rw [formatElement, if_neg hn]
    have hne2 : ((a :: b :: t).length == 1) = false := by
      rw [beq_eq_false_iff_ne]
      simp
    by_cases hcc : hasContent children = true
    · have hch : children.isEmpty = false := by
        cases children with
        | nil => rw [show hasContent [] = false from rfl] at hcc; cases hcc
        | cons c cs => rfl
      refine ⟨"\n" ++ String.intercalate "\n"
        (processChildren children (ind ++ "  ") [] []).2 ++ "\n" ++ ind ++
        "</" ++ name ++ ">", ?_⟩
      simp only [hne2, hcc, hch, List.isEmpty_cons, Bool.not_true, Bool.not_false,
        Bool.false_and, Bool.and_false, Bool.true_and, Bool.and_true, Bool.or_false,
        Bool.false_or, if_false, if_true, Bool.false_eq_true]
      apply stringDataEq
      simp [String.data_append]
    · rw [Bool.not_eq_true] at hcc
      by_cases hse : (children.isEmpty && isSelfClosingTag name) = true
      · refine ⟨"", ?_⟩
        simp only [hne2, hcc, List.isEmpty_cons, Bool.not_true, Bool.not_false,
          Bool.false_and, Bool.and_false, Bool.true_and, Bool.and_true, Bool.or_false,
          Bool.false_or, if_false, if_true, Bool.false_eq_true, Bool.not_not, hse]
        apply stringDataEq
        simp [String.data_append]
      · refine ⟨"\n" ++ ind ++ "</" ++ name ++ ">", ?_⟩
        simp only [hne2, hcc, List.isEmpty_cons, Bool.not_true, Bool.not_false,
          Bool.false_and, Bool.and_false, Bool.true_and, Bool.and_true, Bool.or_false,
          Bool.false_or, if_false, if_true, Bool.false_eq_true, Bool.not_not, hse]
        apply stringDataEq
        simp [String.data_append]

/-- Witness for C3 at the spec's example `app-x` with two attributes and a
text child. -/
theorem claim3_multi_attrs_witness :
    (formatAttributes [{name := "[title]", value := some "t"}, {name := "class", value := some "c"}]
        ("" ++ (if hasContent [Node.text (some "Hi")] then "    " else "  ")) =
      String.intercalate "\n"
        (([{name := "[title]", value := some "t"},
           {name := "class", value := some "c"}] : List Attr).map fun x =>
          ("" ++ (if hasContent [Node.text (some "Hi")] then "    " else "  ")) ++
            (match x.value with
             | none => x.name
             | some v => x.name ++ "=\"" ++ v ++ "\""))) ∧
    ∃ rest : String,
      formatElement (.element "app-x"
        [{name := "[title]", value := some "t"}, {name := "class", value := some "c"}]
        [Node.text (some "Hi")]) "" =
        "" ++ "<" ++ "app-x" ++ "\n" ++
          formatAttributes [{name := "[title]", value := some "t"}, {name := "class", value := some "c"}]
            ("" ++ (if hasContent [Node.text (some "Hi")] then "    " else "  ")) ++
          ">" ++ rest :=
  claim3_multi_attrs "app-x" ""
    [{name := "[title]", value := some "t"}, {name := "class", value := some "c"}]
    [Node.text (some "Hi")] (by decide) (by decide)

theorem protectAux_no_open {cs : List Char}
    (h : containsSeq ('{' :: '{' :: []) cs = false) :
    ∀ fuel k, cs.length < fuel → protectAux fuel k cs = (cs, []) := by
  induction cs with
  | nil =>
    intro fuel k hf
    cases fuel with
    | zero => omega
    | succ f => rfl
  | cons c rest ih =>
    intro fuel k hf
    cases fuel with
    | zero => omega
    | succ f =>
      rw [containsSeq, Bool.or_eq_false_iff] at h
      rw [protectAux, h.1]
      simp only [Bool.false_eq_true, if_false]
      rw [ih h.2 f k (by simp only [List.length_cons] at hf; omega)]

theorem splitCFAux_no_sep {cs : List Char} (h1 : '\x7d' ∉ cs) (h2 : '@' ∉ cs) :
    ∀ fuel accRev, cs.length < fuel →
      splitCFAux fuel accRev cs = [accRev.reverse ++ cs] := by
  induction cs with
  | nil =>
    intro fuel accRev hf
    cases fuel with
    | zero => omega
    | succ f => simp [splitCFAux]
  | cons c rest ih =>
    intro fuel accRev hf
    cases fuel with
    | zero => omega
    | succ f =>
      have hc1 : ¬ c = '\x7d' := fun e => h1 (e ▸ List.mem_cons_self c rest)
      have hc2 : ¬ c = '@' := fun e => h2 (e ▸ List.mem_cons_self c rest)
      rw [splitCFAux, if_neg hc1, if_neg hc2,
        ih (fun m => h1 (List.mem_cons_of_mem c m))
          (fun m => h2 (List.mem_cons_of_mem c m)) f (c :: accRev)
          (by simp only [List.length_cons] at hf ⊢; omega)]
      simp

theorem restoreAux_no_placeholder {cs : List Char} (interps : List String)
    (h : containsSeq "__INTERPOLATION".data cs = false) :
    ∀ fuel, cs.length < fuel → restoreAux fuel interps cs = cs := by
  induction cs with
  | nil =>
    intro fuel hf
    cases fuel with
    | zero => omega
    | succ f => rfl
  | cons c rest ih =>
    intro fuel hf
    cases fuel with
    | zero => omega
    | succ f =>
      rw [containsSeq, Bool.or_eq_false_iff] at h
      rw [restoreAux, if_neg (by rw [h.1]; exact Bool.false_ne_true)]
      rw [ih h.2 f (by simp only [List.length_cons] at hf; omega)]

theorem splitTextNode_plain (s : String) (hs : s ≠ "")
    (h1 : '@' ∉ s.data) (h2 : '\x7d' ∉ s.data)
    (h3 : containsSeq ('{' :: '{' :: []) s.data = false) :
    splitTextNode (.text (some s)) =
      ([jsTrim s].filter (· ≠ "")).map fun p =>
        Node.text (some (String.mk (restoreAux (p.data.length + 1) [] p.data))) := by
  rw [splitTextNode, if_neg hs,
    protectAux_no_open h3 (s.data.length + 1) 0 (by omega)]
  simp only []
  rw [splitCFAux_no_sep h2 h1 (s.data.length + 1) [] (by omega)]
  have hmk : String.mk s.data = s := rfl
  simp [hs, hmk]

/-- C6 counterexample: a Text node with an empty value is returned as the
one-element sequence containing the node itself (the source's
`if (!node.value) return [node]` guard), not as the empty sequence the
claim requires; the later `if (!content) return []` is unreachable. -/
theorem claim6_counterexample :
    splitTextNode (.text (some "")) = [.text (some "")] ∧
    splitTextNode (.text (some "")) ≠ [] := by
  refine ⟨rfl, ?_⟩
  intro h
  rw [show splitTextNode (.text (some "")) = [.text (some "")] from rfl] at h
  cases h

/-- Claim C6 (amended): a Text node with an absent or empty (falsy) value
yields the one-element sequence containing that node; a non-empty value
with no directive marker (`@`), no block-closer (`}`), no interpolation
opener (`{{`), and no placeholder-shaped text in its trimmed form yields
exactly one plain-text fragment holding the trimmed value when that is
non-blank, and the empty sequence when the value is whitespace-only. -/
theorem claim6_amended :
    (splitTextNode (.text none) = [.text none]) ∧
    (splitTextNode (.text (some "")) = [.text (some "")]) ∧
    (∀ s : String, s ≠ "" → jsTrim s ≠ "" →
      '@' ∉ s.data → '\x7d' ∉ s.data →
      containsSeq ('{' :: '{' :: []) s.data = false →
      containsSeq "__INTERPOLATION".data (jsTrim s).data = false →
      splitTextNode (.text (some s)) = [.text (some (jsTrim s))]) ∧
    (∀ s : String, s ≠ "" → jsTrim s = "" →
      splitTextNode (.text (some s)) = []) := by
  refine ⟨rfl, rfl, ?_, ?_⟩
  · intro s hs ht h1 h2 h3 hph
    rw [splitTextNode_plain s hs h1 h2 h3]
    simp only [List.filter_cons, List.filter_nil]
    rw [if_pos (by simp [ht])]
    simp only [List.map_cons, List.map_nil]
    rw [restoreAux_no_placeholder [] hph ((jsTrim s).data.length + 1) (by omega)]
  · intro s hs ht
    have hall : ∀ c ∈ s.data, isWsChar c = true := by
      apply all_of_listTrim_eq_nil
      have := congrArg String.data ht
      simpa [jsTrim] using this
    have h1 : '@' ∉ s.data := fun m => absurd (hall _ m) (by decide)
    have h2 : '\x7d' ∉ s.data := fun m => absurd (hall _ m) (by decide)
    have h3 : containsSeq ('{' :: '{' :: []) s.data = false := by
      cases hb : containsSeq ('{' :: '{' :: []) s.data
      · rfl
      · exact absurd (hall _ (containsSeq_head_mem hb)) (by decide)
    rw [splitTextNode_plain s hs h1 h2 h3, ht]
    rfl

/-- Witness for C6 (amended): a plain padded word trims to one fragment;
a whitespace-only value yields the empty sequence. -/
theorem claim6_amended_witness :
    splitTextNode (.text (some "  hello  ")) = [.text (some (jsTrim "  hello  "))] ∧
    splitTextNode (.text (some "   ")) = [] :=
  ⟨claim6_amended.2.2.1 "  hello  " (by decide) (by decide) (by decide) (by decide)
      (by decide) (by decide),
   claim6_amended.2.2.2 "   " (by decide) (by decide)⟩

end AngularFmt
